import Mathlib

/-!
# Verification of the binlog serialization core and timestamp module

Shallow embedding of the repository mserialize codec (scalar and sequence
wire format, as exercised by the round-trip test suite) and of the
`binlog::Time` conversion functions.  Byte streams are modelled as
`List Nat` with each entry a byte value; machine integers are `Nat`/`Int`
with explicit `% 2 ^ w` wrapping where overflow matters.

The codec implementation itself is not part of the source tree (only its
test suite is), so the wire format is modelled from the specification:
scalars are raw fixed-width byte images, sequences are
`[count][element]*count` with a fixed-width unsigned count (the spec leaves
the exact count width open and suggests 32-bit unsigned, which is what the
tested implementation uses; we fix `countWidth = 4` bytes).
-/

/-- Little-endian base-256 byte image of `v`, exactly `w` bytes. -/
def toBytes : Nat → Nat → List Nat
  | 0, _ => []
  | w + 1, v => v % 256 :: toBytes w (v / 256)

/-- Read back a little-endian base-256 byte image. -/
def fromBytes : List Nat → Nat
  | [] => 0
  | b :: bs => b + 256 * fromBytes bs

/-- Error taxonomy of deserialization (spec section 7):
`incompleteInput` when the source is exhausted mid-read, `sizeMismatch`
when a decoded sequence count disagrees with a fixed-size destination. -/
inductive DError where
  | incompleteInput
  | sizeMismatch
deriving DecidableEq, Repr

/-- Modelled from the spec: the byte source capability.  Reading `w` bytes
succeeds iff at least `w` bytes remain; otherwise the engine reports
Incomplete-Input. -/
def readBytes (w : Nat) (input : List Nat) : Except DError (List Nat × List Nat) :=
  if w ≤ input.length then .ok (input.take w, input.drop w) else .error .incompleteInput

/-- Wire width of a sequence count, in bytes (32-bit unsigned). -/
def countWidth : Nat := 4

/-- Modelled from the spec: the statically-resolved shape of a value
(Type Classifier, spec section 4.1).  Scalars carry their byte width;
fixed-size sequences carry their static length. -/
inductive Shape where
  | scalar (width : Nat)
  | fixedSeq (elem : Shape) (len : Nat)
  | varSeq (elem : Shape)
deriving DecidableEq, Repr

/-- A classified in-memory value: a scalar byte image of a given width, or a
sequence of element values.  Container kinds (array, deque, list, vector,
custom array) all present their elements in canonical iteration order, so a
sequence value is just the list of its elements. -/
inductive Val where
  | scalar (width : Nat) (v : Nat)
  | seq (elems : List Val)

mutual

/-- Modelled from the spec: `mserialize::serialize` (implementation not in
the source tree; the wire format is fixed by spec sections 3 and 4.2).
Scalars are written as their raw fixed-width byte image; sequences as a
fixed-width count followed by the elements in iteration order. -/
def serialize : Val → List Nat
  | .scalar w v => toBytes w v
  | .seq es => toBytes countWidth es.length ++ serializeList es

/-- Serialize a list of element values in order. -/
def serializeList : List Val → List Nat
  | [] => []
  | v :: vs => serialize v ++ serializeList vs

end

mutual

/-- Modelled from the spec: `mserialize::deserialize` (implementation not in
the source tree; behaviour fixed by spec section 4.3).  Scalars read exactly
their fixed byte width, failing with Incomplete-Input on exhaustion.  A
variable-size destination reads the count and reconstructs the value with
exactly that many elements.  A fixed-size destination of static length `n`
reads the count and fails with Size-Mismatch unless it equals `n`. -/
def deserialize : Shape → List Nat → Except DError (Val × List Nat)
  | .scalar w, input =>
    match readBytes w input with
    | .error e => .error e
    | .ok (bs, rest) => .ok (.scalar w (fromBytes bs), rest)
  | .varSeq e, input =>
    match readBytes countWidth input with
    | .error err => .error err
    | .ok (cb, rest) =>
      match deserializeList e (fromBytes cb) rest with
      | .error err => .error err
      | .ok (vs, r) => .ok (.seq vs, r)
  | .fixedSeq e n, input =>
    match readBytes countWidth input with
    | .error err => .error err
    | .ok (cb, rest) =>
      if fromBytes cb = n then
        match deserializeList e n rest with
        | .error err => .error err
        | .ok (vs, r) => .ok (.seq vs, r)
      else .error .sizeMismatch
termination_by s input => (sizeOf s, 0)

/-- Deserialize exactly `k` elements of shape `e` in order. -/
def deserializeList : Shape → Nat → List Nat → Except DError (List Val × List Nat)
  | _, 0, input => .ok ([], input)
  | e, k + 1, input =>
    match deserialize e input with
    | .error err => .error err
    | .ok (v, rest) =>
      match deserializeList e k rest with
      | .error err => .error err
      | .ok (vs, r) => .ok (v :: vs, r)
termination_by e k input => (sizeOf e, k + 1)

end

mutual

/-- Well-formedness of a value for a shape: scalar widths are positive and
match, scalar byte images fit their width, sequence counts fit the count
field, and fixed-size sequences have exactly their static length. -/
def WF : Shape → Val → Bool
  | .scalar w, .scalar w2 v => decide (0 < w) && decide (w2 = w) && decide (v < 2 ^ (8 * w))
  | .varSeq e, .seq es => decide (es.length < 2 ^ (8 * countWidth)) && WFList e es
  | .fixedSeq e n, .seq es =>
    decide (es.length = n) && decide (es.length < 2 ^ (8 * countWidth)) && WFList e es
  | _, _ => false
termination_by s v => (sizeOf s, 0)

/-- All elements of a list are well-formed for shape `e`. -/
def WFList : Shape → List Val → Bool
  | _, [] => true
  | e, v :: vs => WF e v && WFList e vs
termination_by e vs => (sizeOf e, vs.length + 1)

end

/-- Modelled from the spec: serializing an unsigned integer of byte width `w`
writes its raw fixed-width byte image. -/
def serializeUInt (w v : Nat) : List Nat := toBytes w v

/-- Modelled from the spec: deserializing an unsigned integer of byte width
`w` reads exactly `w` bytes, failing with Incomplete-Input on exhaustion. -/
def deserializeUInt (w : Nat) (input : List Nat) : Except DError (Nat × List Nat) :=
  match readBytes w input with
  | .error e => .error e
  | .ok (bs, rest) => .ok (fromBytes bs, rest)

/-- Twos-complement representative of a signed integer in `w` bytes. -/
def toTwos (w : Nat) (i : Int) : Nat := (i % ((2 : Int) ^ (8 * w))).toNat

/-- Signed reading of a twos-complement representative of `w` bytes. -/
def fromTwos (w : Nat) (n : Nat) : Int :=
  if n < 2 ^ (8 * w - 1) then (n : Int) else (n : Int) - (2 : Int) ^ (8 * w)

/-- Modelled from the spec: signed integers are written as the raw byte image
of their twos-complement representation. -/
def serializeSInt (w : Nat) (i : Int) : List Nat := toBytes w (toTwos w i)

/-- Modelled from the spec: signed integer deserialization. -/
def deserializeSInt (w : Nat) (input : List Nat) : Except DError (Int × List Nat) :=
  match readBytes w input with
  | .error e => .error e
  | .ok (bs, rest) => .ok (fromTwos w (fromBytes bs), rest)

/-- Modelled from the spec: a Boolean is written as a single byte, value 0
or 1. -/
def serializeBool1 (b : Bool) : List Nat := [if b then 1 else 0]

/-- Modelled from the spec: Boolean deserialization reads one byte; a
nonzero byte decodes to `true`. -/
def deserializeBool1 (input : List Nat) : Except DError (Bool × List Nat) :=
  match readBytes 1 input with
  | .error e => .error e
  | .ok (bs, rest) => .ok (decide (fromBytes bs ≠ 0), rest)

/-- IEEE-754-style floating point bit pattern: sign, biased exponent and
mantissa fields (spec section 3: the wire preserves these bit fields
exactly). -/
structure FP where
  sign : Bool
  exponent : Nat
  mantissa : Nat
deriving DecidableEq, Repr

/-- The bit fields fit a format with `eb` exponent bits and `mb` mantissa
bits. -/
def FPwf (eb mb : Nat) (f : FP) : Bool :=
  decide (f.exponent < 2 ^ eb) && decide (f.mantissa < 2 ^ mb)

/-- Pack the bit fields into a single natural number: the sign occupies the
top bit, then the exponent, then the mantissa. -/
def packFP (eb mb : Nat) (f : FP) : Nat :=
  (if f.sign then 2 ^ (eb + mb) else 0) + f.exponent * 2 ^ mb + f.mantissa

/-- Unpack the bit fields of a float from its packed image. -/
def unpackFP (eb mb n : Nat) : FP :=
  ⟨decide (2 ^ (eb + mb) ≤ n), n / 2 ^ mb % 2 ^ eb, n % 2 ^ mb⟩

/-- Modelled from the spec: a float of `w` bytes, `eb` exponent bits and
`mb` mantissa bits is written as the raw byte image of its packed bit
pattern. -/
def serializeFP (w eb mb : Nat) (f : FP) : List Nat := toBytes w (packFP eb mb f)

/-- Modelled from the spec: float deserialization reads the fixed byte width
and unpacks the bit fields. -/
def deserializeFP (w eb mb : Nat) (input : List Nat) : Except DError (FP × List Nat) :=
  match readBytes w input with
  | .error e => .error e
  | .ok (bs, rest) => .ok (unpackFP eb mb (fromBytes bs), rest)

/-- A bit pattern classifies as NaN: exponent field all ones, nonzero
mantissa. -/
def isNaNFP (eb : Nat) (f : FP) : Bool :=
  decide (f.exponent = 2 ^ eb - 1) && decide (f.mantissa ≠ 0)

/-- Twos-complement wrap of an integer to `w` bits (the value a signed
`w`-bit machine register would hold). -/
def wrapS (w : Nat) (x : Int) : Int :=
  (x + 2 ^ (w - 1)) % 2 ^ w - 2 ^ (w - 1)

/-- Modelled from the spec: `binlog::ticksToNanoseconds` (declared in
`Time.hpp`; the implementation file is not in the source tree).  Computes
`ticks * 1,000,000,000 / frequency` with a widened 128-bit intermediate
product so the multiplication cannot overflow for 64-bit inputs, truncating
the quotient toward zero.  Precondition: `frequency != 0`. -/
def ticksToNanoseconds (frequency : Nat) (ticks : Int) : Int :=
  Int.tdiv (wrapS 128 (ticks * 1000000000)) (frequency : Int)

/-- Modelled from the spec: the `binlog::ClockSync` record (defined in
`Entries.hpp`, which is not in the source tree; field set and invariant
taken from the spec data model).  `referenceTickValue`, `tickFrequencyHz`
and `referenceNsSinceEpoch` are unsigned 64-bit fields, modelled as `Nat`. -/
structure ClockSync where
  referenceTickValue : Nat
  tickFrequencyHz : Nat
  referenceNsSinceEpoch : Nat
  utcOffsetSeconds : Int
  timezoneName : String

/-- Modelled from the spec: `binlog::clockToNsSinceEpoch` (declared in
`Time.hpp`; implementation not in the source tree).  Extrapolates linearly
from the anchor: the tick delta is a signed difference, so a `clockValue`
earlier than the reference yields a negative offset. -/
def clockToNsSinceEpoch (clockSync : ClockSync) (clockValue : Nat) : Int :=
  (clockSync.referenceNsSinceEpoch : Int) +
    ticksToNanoseconds clockSync.tickFrequencyHz
      ((clockValue : Int) - (clockSync.referenceTickValue : Int))

/-- `std::uint64_t` conversion of a signed value (twos-complement wrap). -/
def toU64 (x : Int) : Nat := (x % 2 ^ 64).toNat

/-- `std::chrono::duration_cast` to nanoseconds of a duration counted in
periods of `1/den` seconds: multiply by the nanosecond scale and divide by
the period denominator, truncating toward zero. -/
def durationCastNs (den : Nat) (count : Int) : Int :=
  Int.tdiv (count * 1000000000) (den : Int)

/-- Shallow embedding of `binlog::systemClockSync` (from `Time.hpp`).  The
platform readings are parameters: `den` is `Clock::period::den` (a positive
compile-time constant), `sinceEpochCount` is `now.time_since_epoch().count()`
in periods of `1/den` seconds, and `offset`/`tzName` are the strftime-derived
timezone data.  The function fills the ClockSync fields with the raw tick
count, the clock frequency, and the truncating nanosecond conversion of the
same since-epoch duration. -/
def systemClockSync (den : Nat) (sinceEpochCount : Int) (offset : Int)
    (tzName : String) : ClockSync :=
  { referenceTickValue := toU64 sinceEpochCount
    tickFrequencyHz := den
    referenceNsSinceEpoch := toU64 (durationCastNs den sinceEpochCount)
    utcOffsetSeconds := offset
    timezoneName := tzName }

/-- Proleptic Gregorian leap-year rule. -/
def isLeap (y : Int) : Bool :=
  (Int.emod y 4 == 0 && Int.emod y 100 != 0) || Int.emod y 400 == 0

/-- Number of days of year `y` in the proleptic Gregorian calendar. -/
def daysInYear (y : Int) : Nat := if isLeap y then 366 else 365

/-- Month lengths (January first) of a common or leap year. -/
def monthLengths (leap : Bool) : List Nat :=
  [31, if leap then 29 else 28, 31, 30, 31, 30, 31, 31, 30, 31, 30, 31]

/-- Walk the month-length table: from a (0-based) day of year, find the
0-based month (offset by the accumulator `m`) and the 0-based day of
month. -/
def monthAndDay : List Nat → Nat → Nat → Nat × Nat
  | [], m, d => (m, d)
  | L :: rest, m, d => if d < L then (m, d) else monthAndDay rest (m + 1) (d - L)
/-- Find the year containing epoch day `yearStart y + d` by stepping
forward one year at a time (`d` counts days from the start of year `y`). -/
def yearFwd (y : Int) (d : Nat) : Int × Nat :=
  if d < daysInYear y then (y, d) else yearFwd (y + 1) (d - daysInYear y)
termination_by d
decreasing_by
  have h365 : 365 ≤ daysInYear y := by
    unfold daysInYear
    split <;> norm_num
  omega

/-- Find the year containing the day `n` days before the start of year `y`
(`0 < n`), stepping backward one year at a time. -/
def yearBwd (y : Int) (n : Nat) : Int × Nat :=
  if n ≤ daysInYear (y - 1) then (y - 1, daysInYear (y - 1) - n)
  else yearBwd (y - 1) (n - daysInYear (y - 1))
termination_by n
decreasing_by
  have h365 : 365 ≤ daysInYear (y - 1) := by
    unfold daysInYear
    split <;> norm_num
  omega

/-- Year and 0-based day-of-year of epoch day `z` (day 0 = 1970-01-01) in
the proleptic Gregorian calendar, leap seconds ignored. -/
def civilFromDays (z : Int) : Int × Nat :=
  if 0 ≤ z then yearFwd 1970 z.toNat else yearBwd 1970 (-z).toNat

/-- `binlog::BrokenDownTime` (from `Time.hpp`): standard `std::tm` calendar
fields plus a nanosecond fraction `tm_nsec`.  `tm_year` is years since
1900, `tm_mon` the 0-based month, `tm_mday` the 1-based day of month,
`tm_yday` the 0-based day of year. -/
structure BrokenDownTime where
  tm_sec : Nat
  tm_min : Nat
  tm_hour : Nat
  tm_mday : Nat
  tm_mon : Nat
  tm_year : Int
  tm_yday : Nat
  tm_nsec : Nat
deriving DecidableEq, Repr

/-- Modelled from the spec: `binlog::nsSinceEpochToBrokenDownTimeUTC`
(declared in `Time.hpp`; implementation not in the source tree).  Splits
the epoch nanosecond count into whole seconds and a nanosecond remainder,
converts the whole seconds to UTC calendar fields of the proleptic
Gregorian calendar (leap seconds ignored, every day has 86,400 seconds)
and stores the remainder in `tm_nsec`. -/
def nsSinceEpochToBrokenDownTimeUTC (ns : Int) : BrokenDownTime :=
  let secs : Int := ns / 1000000000
  let rem : Nat := (ns % 1000000000).toNat
  let days : Int := secs / 86400
  let sod : Nat := (secs % 86400).toNat
  let yd := civilFromDays days
  let md := monthAndDay (monthLengths (isLeap yd.1)) 0 yd.2
  { tm_sec := sod % 60
    tm_min := sod % 3600 / 60
    tm_hour := sod / 3600
    tm_mday := md.2 + 1
    tm_mon := md.1
    tm_year := yd.1 - 1900
    tm_yday := yd.2
    tm_nsec := rem }

/-- Days from the epoch to the start of year `1970 + n`. -/
def yearStartFwd : Nat → Int
  | 0 => 0
  | n + 1 => yearStartFwd n + daysInYear (1970 + (n : Int))

/-- Days from the epoch to the start of year `1970 - n` (non-positive). -/
def yearStartBwd : Nat → Int
  | 0 => 0
  | n + 1 => yearStartBwd n - daysInYear (1970 - ((n : Int) + 1))

/-- Epoch day of January 1 of year `y` (day 0 = 1970-01-01). -/
def yearStart (y : Int) : Int :=
  if 1970 ≤ y then yearStartFwd (y - 1970).toNat else yearStartBwd (1970 - y).toNat

/-- The independent inverse: epoch day of the calendar date
(`year`, 0-based month `mon`, 1-based day `mday`). -/
def daysFromFields (year : Int) (mon mday : Nat) : Int :=
  yearStart year + (((monthLengths (isLeap year)).take mon).sum : Int) + (mday : Int) - 1
/-- Modelled from the spec: in-place deserialization into a variable-size
destination reads the count and reconstructs the destination from the wire
data alone (grow/shrink/replace as needed); the prior contents of the
destination are discarded entirely, so the result does not depend on them. -/
def deserializeInto (_old : Val) (s : Shape) (input : List Nat) :
    Except DError (Val × List Nat) :=
  deserialize s input

/-- A logical Boolean element as a one-byte wire scalar (value 0 or 1). -/
def boolToVal (b : Bool) : Val := .scalar 1 (if b then 1 else 0)

/-- Modelled from the spec: a packed boolean container (e.g.
`std::vector<bool>`, storing booleans as bits) is serialized as the logical
sequence of its Booleans — one full wire byte per logical element, through
the same sequence encoding path as any other container, never as a raw dump
of the packed storage. -/
def serializeBools (bs : List Bool) : List Nat :=
  serialize (.seq (bs.map boolToVal))

/-- Read back a Boolean from a decoded one-byte element value. -/
def valToBool : Val → Bool
  | .scalar _ v => decide (v ≠ 0)
  | .seq _ => false

/-- Modelled from the spec: deserializing a packed boolean container decodes
a variable-size sequence of one-byte Booleans. -/
def deserializeBools (input : List Nat) : Except DError (List Bool × List Nat) :=
  match deserialize (.varSeq (.scalar 1)) input with
  | .error e => .error e
  | .ok (.seq es, rest) => .ok (es.map valToBool, rest)
  | .ok (.scalar _ _, rest) => .ok ([], rest)

theorem toBytes_length (w v : Nat) : (toBytes w v).length = w := by
  induction w generalizing v with
  | zero => rfl
  | succ w ih => simp [toBytes, ih]

theorem fromBytes_toBytes (w v : Nat) (h : v < 2 ^ (8 * w)) : fromBytes (toBytes w v) = v := by
  induction w generalizing v with
  | zero =>
    rw [Nat.mul_zero, Nat.pow_zero] at h
    simp [toBytes, fromBytes]
    omega
  | succ w ih =>
    have h2 : 8 * (w + 1) = 8 * w + 8 := by ring
    rw [h2, Nat.pow_add] at h
    have hA : 0 < 2 ^ (8 * w) := Nat.pos_pow_of_pos _ (by norm_num)
    have hd : v / 256 < 2 ^ (8 * w) := by
      have : (2 : Nat) ^ 8 = 256 := by norm_num
      rw [this] at h
      omega
    simp [toBytes, fromBytes, ih _ hd]
    omega

theorem readBytes_append (w : Nat) (bs rest : List Nat) (h : bs.length = w) :
    readBytes w (bs ++ rest) = .ok (bs, rest) := by
  subst h
  simp [readBytes, List.take_left, List.drop_left]

theorem readBytes_short (w : Nat) (input : List Nat) (h : input.length < w) :
    readBytes w input = .error .incompleteInput := by
  simp [readBytes]
  omega

theorem deserializeList_ok (e : Shape)
    (ih : ∀ v rest, WF e v = true → deserialize e (serialize v ++ rest) = .ok (v, rest))
    (es : List Val) (rest : List Nat) (h : WFList e es = true) :
    deserializeList e es.length (serializeList es ++ rest) = .ok (es, rest) := by
  induction es generalizing rest with
  | nil => simp [serializeList, deserializeList]
  | cons v vs ihl =>
    rw [WFList, Bool.and_eq_true] at h
    obtain ⟨h1, h2⟩ := h
    show deserializeList e (vs.length + 1) ((serialize v ++ serializeList vs) ++ rest) = _
    rw [List.append_assoc]
    simp only [deserializeList, ih v _ h1, ihl _ h2]

theorem deserialize_serialize (s : Shape) :
    ∀ (v : Val) (rest : List Nat), WF s v = true →
      deserialize s (serialize v ++ rest) = .ok (v, rest) := by
  induction s with
  | scalar w =>
    intro v rest h
    cases v with
    | seq es => simp [WF] at h
    | scalar w2 x =>
      simp only [WF, Bool.and_eq_true, decide_eq_true_eq] at h
      obtain ⟨⟨hw, hww⟩, hx⟩ := h
      subst hww
      rw [serialize, deserialize, readBytes_append _ _ _ (toBytes_length w2 x)]
      simp only [fromBytes_toBytes _ _ hx]
  | varSeq e ih =>
    intro v rest h
    cases v with
    | scalar w2 x => simp [WF] at h
    | seq es =>
      simp only [WF, Bool.and_eq_true, decide_eq_true_eq] at h
      obtain ⟨hlen, hwf⟩ := h
      rw [serialize, List.append_assoc, deserialize]
      rw [readBytes_append _ _ _ (toBytes_length countWidth es.length)]
      simp only [fromBytes_toBytes _ _ hlen, deserializeList_ok e ih es rest hwf]
  | fixedSeq e n ih =>
    intro v rest h
    cases v with
    | scalar w2 x => simp [WF] at h
    | seq es =>
      simp only [WF, Bool.and_eq_true, decide_eq_true_eq] at h
      obtain ⟨⟨hn, hlen⟩, hwf⟩ := h
      subst hn
      rw [serialize, List.append_assoc, deserialize]
      rw [readBytes_append _ _ _ (toBytes_length countWidth es.length)]
      simp only [fromBytes_toBytes _ _ hlen, eq_self_iff_true, if_true,
        deserializeList_ok e ih es rest hwf]

theorem deserializeList_take (e : Shape)
    (ihB : ∀ v k, WF e v = true → k < (serialize v).length →
      deserialize e ((serialize v).take k) = .error .incompleteInput)
    (es : List Val) :
    ∀ k, WFList e es = true → k < (serializeList es).length →
      deserializeList e es.length ((serializeList es).take k) = .error .incompleteInput := by
  induction es with
  | nil =>
    intro k h hk
    simp [serializeList] at hk
  | cons v vs ihl =>
    intro k h hk
    rw [WFList, Bool.and_eq_true] at h
    obtain ⟨h1, h2⟩ := h
    show deserializeList e (vs.length + 1) ((serialize v ++ serializeList vs).take k) = _
    rcases Nat.lt_or_ge k (serialize v).length with hlt | hge
    · rw [List.take_append_eq_append_take, Nat.sub_eq_zero_of_le (le_of_lt hlt)]
      simp only [List.take_zero, List.append_nil]
      simp only [deserializeList, ihB v k h1 hlt]
    · obtain ⟨k', rfl⟩ : ∃ k', k = (serialize v).length + k' :=
        ⟨k - (serialize v).length, by omega⟩
      rw [List.take_append_eq_append_take, Nat.add_sub_cancel_left,
        List.take_of_length_le (Nat.le_add_right _ _)]
      have hk' : k' < (serializeList vs).length := by
        rw [serializeList, List.length_append] at hk
        omega
      simp only [deserializeList, deserialize_serialize e v _ h1, ihl k' h2 hk']

theorem deserialize_take (s : Shape) :
    ∀ (v : Val) (k : Nat), WF s v = true → k < (serialize v).length →
      deserialize s ((serialize v).take k) = .error .incompleteInput := by
  induction s with
  | scalar w =>
    intro v k h hk
    cases v with
    | seq es => simp [WF] at h
    | scalar w2 x =>
      simp only [WF, Bool.and_eq_true, decide_eq_true_eq] at h
      obtain ⟨⟨hw, hww⟩, hx⟩ := h
      subst hww
      rw [serialize] at hk ⊢
      rw [toBytes_length] at hk
      have hshort : ((toBytes w2 x).take k).length < w2 := by
        simp [List.length_take, toBytes_length]
        omega
      simp only [deserialize, readBytes_short _ _ hshort]
  | varSeq e ih =>
    intro v k h hk
    cases v with
    | scalar w2 x => simp [WF] at h
    | seq es =>
      simp only [WF, Bool.and_eq_true, decide_eq_true_eq] at h
      obtain ⟨hlen, hwf⟩ := h
      rw [serialize] at hk ⊢
      rcases Nat.lt_or_ge k countWidth with hclt | hcge
      · have hshort : (((toBytes countWidth es.length) ++ serializeList es).take k).length
            < countWidth := by
          simp [List.length_take]
          omega
        simp only [deserialize, readBytes_short _ _ hshort]
      · obtain ⟨k', rfl⟩ : ∃ k', k = countWidth + k' := ⟨k - countWidth, by omega⟩
        have hcb : (toBytes countWidth es.length).length = countWidth :=
          toBytes_length _ _
        rw [List.take_append_eq_append_take, hcb, Nat.add_sub_cancel_left,
          List.take_of_length_le (by rw [hcb]; exact Nat.le_add_right _ _)]
        have hk' : k' < (serializeList es).length := by
          rw [List.length_append, hcb] at hk
          omega
        simp only [deserialize, readBytes_append _ _ _ hcb, fromBytes_toBytes _ _ hlen,
          deserializeList_take e ih es k' hwf hk']
  | fixedSeq e n ih =>
    intro v k h hk
    cases v with
    | scalar w2 x => simp [WF] at h
    | seq es =>
      simp only [WF, Bool.and_eq_true, decide_eq_true_eq] at h
      obtain ⟨⟨hn, hlen⟩, hwf⟩ := h
      subst hn
      rw [serialize] at hk ⊢
      rcases Nat.lt_or_ge k countWidth with hclt | hcge
      · have hshort : (((toBytes countWidth es.length) ++ serializeList es).take k).length
            < countWidth := by
          simp [List.length_take]
          omega
        simp only [deserialize, readBytes_short _ _ hshort]
      · obtain ⟨k', rfl⟩ : ∃ k', k = countWidth + k' := ⟨k - countWidth, by omega⟩
        have hcb : (toBytes countWidth es.length).length = countWidth :=
          toBytes_length _ _
        rw [List.take_append_eq_append_take, hcb, Nat.add_sub_cancel_left,
          List.take_of_length_le (by rw [hcb]; exact Nat.le_add_right _ _)]
        have hk' : k' < (serializeList es).length := by
          rw [List.length_append, hcb] at hk
          omega
        simp only [deserialize, readBytes_append _ _ _ hcb, fromBytes_toBytes _ _ hlen,
          eq_self_iff_true, if_true, deserializeList_take e ih es k' hwf hk']

theorem packFP_eq (eb mb : Nat) (s : Bool) (ex ma : Nat) :
    packFP eb mb ⟨s, ex, ma⟩ = ma + (ex + (if s then 2 ^ eb else 0)) * 2 ^ mb := by
  cases s <;> simp [packFP, Nat.pow_add] <;> ring

theorem packFP_lt (eb mb : Nat) (f : FP) (h : FPwf eb mb f = true) :
    packFP eb mb f < 2 ^ (1 + eb + mb) := by
  obtain ⟨s, ex, ma⟩ := f
  simp only [FPwf, Bool.and_eq_true, decide_eq_true_eq] at h
  obtain ⟨he, hm⟩ := h
  rw [packFP_eq]
  have hpow : (2 : Nat) ^ (1 + eb + mb) = 2 * (2 ^ eb * 2 ^ mb) := by
    rw [Nat.add_assoc, Nat.pow_add, Nat.pow_one, Nat.pow_add]
  rw [hpow]
  have hc : (if s then 2 ^ eb else 0) ≤ 2 ^ eb := by cases s <;> simp
  calc ma + (ex + (if s then 2 ^ eb else 0)) * 2 ^ mb
      < 2 ^ mb + (ex + (if s then 2 ^ eb else 0)) * 2 ^ mb := by omega
    _ = (1 + ex + (if s then 2 ^ eb else 0)) * 2 ^ mb := by ring
    _ ≤ (2 * 2 ^ eb) * 2 ^ mb := Nat.mul_le_mul_right _ (by omega)
    _ = 2 * (2 ^ eb * 2 ^ mb) := by ring

theorem unpackFP_packFP (eb mb : Nat) (f : FP) (h : FPwf eb mb f = true) :
    unpackFP eb mb (packFP eb mb f) = f := by
  obtain ⟨s, ex, ma⟩ := f
  simp only [FPwf, Bool.and_eq_true, decide_eq_true_eq] at h
  obtain ⟨he, hm⟩ := h
  have hpos : 0 < (2 : Nat) ^ mb := Nat.pos_pow_of_pos _ (by norm_num)
  unfold unpackFP
  cases s with
  | false =>
    rw [packFP_eq, if_neg Bool.false_ne_true, Nat.add_zero, FP.mk.injEq]
    refine ⟨?_, ?_, ?_⟩
    · rw [Nat.pow_add, decide_eq_false_iff_not, Nat.not_le]
      calc ma + ex * 2 ^ mb
          < 2 ^ mb + ex * 2 ^ mb := by omega
        _ = (1 + ex) * 2 ^ mb := by ring
        _ ≤ 2 ^ eb * 2 ^ mb := Nat.mul_le_mul_right _ (by omega)
    · rw [Nat.add_mul_div_right _ _ hpos, Nat.div_eq_of_lt hm, Nat.zero_add,
        Nat.mod_eq_of_lt he]
    · rw [Nat.add_mul_mod_self_right, Nat.mod_eq_of_lt hm]
  | true =>
    rw [packFP_eq, if_pos rfl, FP.mk.injEq]
    refine ⟨?_, ?_, ?_⟩
    · rw [Nat.pow_add, decide_eq_true_eq]
      calc 2 ^ eb * 2 ^ mb
          ≤ (ex + 2 ^ eb) * 2 ^ mb := Nat.mul_le_mul_right _ (by omega)
        _ ≤ ma + (ex + 2 ^ eb) * 2 ^ mb := Nat.le_add_left _ _
    · rw [Nat.add_mul_div_right _ _ hpos, Nat.div_eq_of_lt hm, Nat.zero_add,
        Nat.add_mod_right, Nat.mod_eq_of_lt he]
    · rw [Nat.add_mul_mod_self_right, Nat.mod_eq_of_lt hm]

theorem twos_id (M : Nat) (i : Int) (hM : 0 < M)
    (h1 : -(M : Int) ≤ i) (h2 : i < (M : Int)) :
    (if (i % (2 * (M : Int))).toNat < M then (((i % (2 * (M : Int))).toNat : Nat) : Int)
     else (((i % (2 * (M : Int))).toNat : Nat) : Int) - 2 * (M : Int)) = i := by
  have hMpos : (0 : Int) < 2 * (M : Int) := by omega
  have h0 : 0 ≤ i % (2 * (M : Int)) := Int.emod_nonneg _ (by omega)
  have hlt : i % (2 * (M : Int)) < 2 * (M : Int) := Int.emod_lt_of_pos _ hMpos
  have heq : i % (2 * (M : Int)) = i ∨ i % (2 * (M : Int)) = i + 2 * (M : Int) := by
    rcases le_or_lt 0 i with hi | hi
    · exact Or.inl (Int.emod_eq_of_lt hi (by omega))
    · refine Or.inr ?_
      have key : (i + 1 * (2 * (M : Int))) % (2 * (M : Int)) = i % (2 * (M : Int)) :=
        Int.add_mul_emod_self
      rw [← key]
      exact (Int.emod_eq_of_lt (by omega) (by omega)).trans (by ring)
  rcases heq with h | h <;> rw [h]
  · rw [if_pos (by omega)]
    omega
  · rw [if_neg (by omega)]
    omega

theorem pow_split (w : Nat) (hw : 0 < w) :
    (2 : Int) ^ (8 * w) = 2 * (((2 : Nat) ^ (8 * w - 1) : Nat) : Int) := by
  have h8 : 8 * w = (8 * w - 1) + 1 := by omega
  rw [h8, pow_succ]
  push_cast
  ring

theorem toTwos_lt (w : Nat) (i : Int) : toTwos w i < 2 ^ (8 * w) := by
  unfold toTwos
  have h0 : 0 ≤ i % (2 : Int) ^ (8 * w) := Int.emod_nonneg _ (by positivity)
  have hlt : i % (2 : Int) ^ (8 * w) < (2 : Int) ^ (8 * w) := Int.emod_lt_of_pos _ (by positivity)
  have hMI : (((2 : Nat) ^ (8 * w) : Nat) : Int) = (2 : Int) ^ (8 * w) := by
    push_cast
    ring
  zify
  rw [Int.toNat_of_nonneg h0]
  exact_mod_cast hlt

theorem fromTwos_toTwos (w : Nat) (i : Int) (hw : 0 < w)
    (h1 : -((2 : Int) ^ (8 * w - 1)) ≤ i) (h2 : i < (2 : Int) ^ (8 * w - 1)) :
    fromTwos w (toTwos w i) = i := by
  have hPI : (((2 : Nat) ^ (8 * w - 1) : Nat) : Int) = (2 : Int) ^ (8 * w - 1) := by
    push_cast
    ring
  have hP : 0 < (2 : Nat) ^ (8 * w - 1) := Nat.pos_pow_of_pos _ (by norm_num)
  unfold fromTwos toTwos
  rw [pow_split w hw]
  exact twos_id _ i hP (by rw [hPI]; exact h1) (by rw [hPI]; exact h2)

theorem deserializeUInt_serializeUInt (w v : Nat) (rest : List Nat) (h : v < 2 ^ (8 * w)) :
    deserializeUInt w (serializeUInt w v ++ rest) = .ok (v, rest) := by
  unfold serializeUInt deserializeUInt
  rw [readBytes_append _ _ _ (toBytes_length w v)]
  simp only [fromBytes_toBytes _ _ h]

theorem deserializeSInt_serializeSInt (w : Nat) (i : Int) (rest : List Nat) (hw : 0 < w)
    (h1 : -((2 : Int) ^ (8 * w - 1)) ≤ i) (h2 : i < (2 : Int) ^ (8 * w - 1)) :
    deserializeSInt w (serializeSInt w i ++ rest) = .ok (i, rest) := by
  unfold serializeSInt deserializeSInt
  rw [readBytes_append _ _ _ (toBytes_length w (toTwos w i))]
  simp only [fromBytes_toBytes _ _ (toTwos_lt w i), fromTwos_toTwos w i hw h1 h2]

theorem deserializeBool1_serializeBool1 (b : Bool) (rest : List Nat) :
    deserializeBool1 (serializeBool1 b ++ rest) = .ok (b, rest) := by
  cases b <;> simp [deserializeBool1, serializeBool1, readBytes, fromBytes]

theorem deserializeFP_serializeFP (w eb mb : Nat) (f : FP) (rest : List Nat)
    (hw : 1 + eb + mb = 8 * w) (h : FPwf eb mb f = true) :
    deserializeFP w eb mb (serializeFP w eb mb f ++ rest) = .ok (f, rest) := by
  unfold serializeFP deserializeFP
  rw [readBytes_append _ _ _ (toBytes_length w (packFP eb mb f))]
  simp only [fromBytes_toBytes _ _ (by rw [← hw]; exact packFP_lt eb mb f h),
    unpackFP_packFP eb mb f h]

theorem wrapS_eq_self (x : Int) (h1 : -(2 : Int) ^ 127 ≤ x) (h2 : x < (2 : Int) ^ 127) :
    wrapS 128 x = x := by
  unfold wrapS
  have hs : (128 : Nat) - 1 = 127 := by norm_num
  rw [hs]
  have hpow : (2 : Int) ^ 128 = 2 ^ 127 * 2 := by ring
  have h0 : (0 : Int) ≤ x + 2 ^ 127 := by omega
  have hlt : x + 2 ^ 127 < 2 ^ 128 := by rw [hpow]; omega
  rw [Int.emod_eq_of_lt h0 hlt]
  ring

theorem daysInYear_ge (y : Int) : 365 ≤ daysInYear y := by
  unfold daysInYear
  split <;> norm_num

theorem yearStart_succ (y : Int) : yearStart (y + 1) = yearStart y + daysInYear y := by
  unfold yearStart
  rcases lt_trichotomy y 1969 with hy | hy | hy
  · rw [if_neg (by omega), if_neg (by omega)]
    have hm : (1970 - y).toNat = (1970 - (y + 1)).toNat + 1 := by omega
    rw [hm, yearStartBwd]
    have harg : (1970 : Int) - (((1970 - (y + 1)).toNat : Int) + 1) = y := by omega
    rw [harg]
    ring
  · subst hy
    rw [if_pos (by norm_num : (1970 : Int) ≤ 1969 + 1), if_neg (by norm_num : ¬ (1970 : Int) ≤ 1969)]
    have h0 : ((1969 + 1 - 1970 : Int)).toNat = 0 := by norm_num
    have h1 : ((1970 - 1969 : Int)).toNat = 1 := by norm_num
    rw [h0, h1]
    show yearStartFwd 0 = yearStartBwd (0 + 1) + (daysInYear 1969 : Int)
    rw [yearStartFwd, yearStartBwd, yearStartBwd]
    norm_num
  · rw [if_pos (by omega), if_pos (by omega)]
    have hm : (y + 1 - 1970).toNat = (y - 1970).toNat + 1 := by omega
    rw [hm, yearStartFwd]
    have harg : (1970 : Int) + ((y - 1970).toNat : Int) = y := by omega
    rw [harg]

theorem yearStart_epoch : yearStart 1970 = 0 := by
  norm_num [yearStart, yearStartFwd]

theorem yearFwd_spec (d : Nat) : ∀ y : Int,
    (yearFwd y d).2 < daysInYear (yearFwd y d).1 ∧
    yearStart (yearFwd y d).1 + ((yearFwd y d).2 : Int) = yearStart y + (d : Int) := by
  induction d using Nat.strong_induction_on with
  | _ d ih =>
    intro y
    rw [yearFwd]
    split
    · rename_i h
      exact ⟨h, by simp⟩
    · rename_i h
      have hL := daysInYear_ge y
      have hlt : d - daysInYear y < d := by omega
      obtain ⟨ih1, ih2⟩ := ih _ hlt (y + 1)
      refine ⟨ih1, ?_⟩
      rw [ih2, yearStart_succ]
      have hc : ((d - daysInYear y : Nat) : Int) = (d : Int) - (daysInYear y : Int) := by
        omega
      rw [hc]
      ring

theorem yearBwd_spec (n : Nat) : ∀ y : Int, 0 < n →
    (yearBwd y n).2 < daysInYear (yearBwd y n).1 ∧
    yearStart (yearBwd y n).1 + ((yearBwd y n).2 : Int) = yearStart y - (n : Int) := by
  induction n using Nat.strong_induction_on with
  | _ n ih =>
    intro y hn
    rw [yearBwd]
    have hstep : yearStart y = yearStart (y - 1) + daysInYear (y - 1) := by
      have := yearStart_succ (y - 1)
      simpa using this
    split
    · rename_i h
      dsimp only
      refine ⟨by omega, ?_⟩
      have hc : ((daysInYear (y - 1) - n : Nat) : Int)
          = (daysInYear (y - 1) : Int) - (n : Int) := by omega
      rw [hc, hstep]
      ring
    · rename_i h
      have hL := daysInYear_ge (y - 1)
      have hlt : n - daysInYear (y - 1) < n := by omega
      obtain ⟨ih1, ih2⟩ := ih _ hlt (y - 1) (by omega)
      refine ⟨ih1, ?_⟩
      rw [ih2, hstep]
      have hc : ((n - daysInYear (y - 1) : Nat) : Int)
          = (n : Int) - (daysInYear (y - 1) : Int) := by omega
      rw [hc]
      ring

theorem civilFromDays_spec (z : Int) :
    (civilFromDays z).2 < daysInYear (civilFromDays z).1 ∧
    yearStart (civilFromDays z).1 + ((civilFromDays z).2 : Int) = z := by
  unfold civilFromDays
  split
  · rename_i h
    obtain ⟨h1, h2⟩ := yearFwd_spec z.toNat 1970
    refine ⟨h1, ?_⟩
    rw [h2, yearStart_epoch]
    omega
  · rename_i h
    obtain ⟨h1, h2⟩ := yearBwd_spec (-z).toNat 1970 (by omega)
    refine ⟨h1, ?_⟩
    rw [h2, yearStart_epoch]
    omega

theorem monthAndDay_spec : ∀ (ls : List Nat) (m0 d : Nat), d < ls.sum →
    m0 ≤ (monthAndDay ls m0 d).1 ∧
    (monthAndDay ls m0 d).1 - m0 < ls.length ∧
    ((ls.take ((monthAndDay ls m0 d).1 - m0)).sum : Int) + ((monthAndDay ls m0 d).2 : Int)
      = (d : Int) ∧
    (monthAndDay ls m0 d).2 < ls.getD ((monthAndDay ls m0 d).1 - m0) 0 := by
  intro ls
  induction ls with
  | nil =>
    intro m0 d h
    simp at h
  | cons L rest ih =>
    intro m0 d h
    rw [monthAndDay]
    split
    · rename_i hd
      refine ⟨le_refl _, by simp, by simp, by simpa using hd⟩
    · rename_i hd
      push_neg at hd
      have hsum : d - L < rest.sum := by
        simp only [List.sum_cons] at h
        omega
      obtain ⟨ih1, ih2, ih3, ih4⟩ := ih (m0 + 1) (d - L) hsum
      refine ⟨by omega, ?_, ?_, ?_⟩
      · simp only [List.length_cons]
        omega
      · have hk : (monthAndDay rest (m0 + 1) (d - L)).1 - m0
            = ((monthAndDay rest (m0 + 1) (d - L)).1 - (m0 + 1)) + 1 := by omega
        rw [hk, List.take_succ_cons, List.sum_cons]
        push_cast at ih3 ⊢
        omega
      · have hk : (monthAndDay rest (m0 + 1) (d - L)).1 - m0
            = ((monthAndDay rest (m0 + 1) (d - L)).1 - (m0 + 1)) + 1 := by omega
        rw [hk, List.getD_cons_succ]
        exact ih4

theorem monthLengths_sum (y : Int) : ((monthLengths (isLeap y)).sum : Nat) = daysInYear y := by
  unfold daysInYear
  cases h : isLeap y <;> simp [monthLengths]

theorem serializeList_map_boolToVal (bs : List Bool) :
    serializeList (bs.map boolToVal) = bs.map (fun b => if b then 1 else 0) := by
  induction bs with
  | nil => simp [serializeList]
  | cons b bs ih =>
    cases b <;> simp [serializeList, serialize, boolToVal, toBytes, ih]

theorem WFList_bools (bs : List Bool) :
    WFList (.scalar 1) (bs.map boolToVal) = true := by
  induction bs with
  | nil => simp [WFList]
  | cons b bs ih =>
    cases b <;> simp [WFList, WF, boolToVal, ih]

theorem map_valToBool_boolToVal (bs : List Bool) :
    (bs.map boolToVal).map valToBool = bs := by
  induction bs with
  | nil => rfl
  | cons b bs ih =>
    cases b <;> simp [boolToVal, valToBool, ih]

theorem monthLengths_length (leap : Bool) : (monthLengths leap).length = 12 := by
  cases leap <;> rfl

/-- C1: Scalar round-trip identity.  For unsigned integers of any positive
byte width `w` every representable value round-trips (in particular the
minimum 0 and the maximum `2^(8w) - 1`); for signed integers every value of
the twos-complement range round-trips (in particular the minimum and the
maximum); Booleans round-trip; every well-formed IEEE-754-style bit pattern
(covering lowest, negative zero and the infinities) round-trips bit-exactly;
and a NaN input decodes to a value that classifies as NaN. -/
theorem scalar_roundtrip_spec (w : Nat) (hw : 0 < w) :
    (∀ (v : Nat) (rest : List Nat), v < 2 ^ (8 * w) →
      deserializeUInt w (serializeUInt w v ++ rest) = .ok (v, rest)) ∧
    (∀ (i : Int) (rest : List Nat),
      -((2 : Int) ^ (8 * w - 1)) ≤ i → i < (2 : Int) ^ (8 * w - 1) →
      deserializeSInt w (serializeSInt w i ++ rest) = .ok (i, rest)) ∧
    (∀ (b : Bool) (rest : List Nat),
      deserializeBool1 (serializeBool1 b ++ rest) = .ok (b, rest)) ∧
    (∀ (eb mb : Nat) (f : FP) (rest : List Nat), 1 + eb + mb = 8 * w →
      FPwf eb mb f = true →
      deserializeFP w eb mb (serializeFP w eb mb f ++ rest) = .ok (f, rest)) ∧
    (∀ (eb mb : Nat) (f : FP) (rest : List Nat), 1 + eb + mb = 8 * w →
      FPwf eb mb f = true → isNaNFP eb f = true →
      ∃ out : FP,
        deserializeFP w eb mb (serializeFP w eb mb f ++ rest) = .ok (out, rest) ∧
        isNaNFP eb out = true) :=
  ⟨fun v rest h => deserializeUInt_serializeUInt w v rest h,
   fun i rest h1 h2 => deserializeSInt_serializeSInt w i rest hw h1 h2,
   fun b rest => deserializeBool1_serializeBool1 b rest,
   fun eb mb f rest hband h => deserializeFP_serializeFP w eb mb f rest hband h,
   fun eb mb f rest hband h hnan =>
     ⟨f, deserializeFP_serializeFP w eb mb f rest hband h, hnan⟩⟩

theorem scalar_roundtrip_witness :
    deserializeUInt 8 (serializeUInt 8 (2 ^ 64 - 1) ++ []) = .ok (2 ^ 64 - 1, []) ∧
    deserializeSInt 8 (serializeSInt 8 (-((2 : Int) ^ 63)) ++ []) = .ok (-((2 : Int) ^ 63), []) ∧
    deserializeBool1 (serializeBool1 true ++ []) = .ok (true, []) ∧
    deserializeFP 8 11 52 (serializeFP 8 11 52 ⟨true, 2047, 0⟩ ++ [])
      = .ok (⟨true, 2047, 0⟩, []) ∧
    (∃ out : FP,
      deserializeFP 10 15 64 (serializeFP 10 15 64 ⟨false, 32767, 1⟩ ++ [])
        = .ok (out, []) ∧ isNaNFP 15 out = true) :=
  ⟨(scalar_roundtrip_spec 8 (by decide)).1 _ [] (by decide),
   (scalar_roundtrip_spec 8 (by decide)).2.1 _ [] (by decide) (by decide),
   (scalar_roundtrip_spec 8 (by decide)).2.2.1 true [],
   (scalar_roundtrip_spec 8 (by decide)).2.2.2.1 11 52 _ [] (by decide) (by decide),
   (scalar_roundtrip_spec 10 (by decide)).2.2.2.2 15 64 _ [] (by decide) (by decide) (by decide)⟩

/-- C2: for every nonzero frequency and every signed 64-bit tick count,
`ticksToNanoseconds` returns exactly `ticks * 1,000,000,000 / frequencyHz`
truncated toward zero — the 128-bit intermediate product never wraps for
64-bit inputs, so the result is exact even when both inputs are near their
maximum magnitude; in particular `ticksToNanoseconds 3,000,000,000 4 = 1`. -/
theorem ticksToNanoseconds_spec (frequency : Nat) (ticks : Int)
    (h0 : frequency ≠ 0) (h64 : frequency < 2 ^ 64)
    (ht1 : -((2 : Int) ^ 63) ≤ ticks) (ht2 : ticks < (2 : Int) ^ 63) :
    ticksToNanoseconds frequency ticks
      = Int.tdiv (ticks * 1000000000) (frequency : Int) ∧
    ticksToNanoseconds 3000000000 4 = 1 := by
  constructor
  · have h63 : (2 : Int) ^ 63 = 9223372036854775808 := by norm_num
    have h127 : (2 : Int) ^ 127 = 170141183460469231731687303715884105728 := by norm_num
    rw [h63] at ht1 ht2
    unfold ticksToNanoseconds
    rw [wrapS_eq_self _ (by rw [h127]; omega) (by rw [h127]; omega)]
  · unfold ticksToNanoseconds wrapS
    norm_num
    decide


theorem ticksToNanoseconds_witness :
    ticksToNanoseconds 3000000000 4
      = Int.tdiv (4 * 1000000000) ((3000000000 : Nat) : Int) ∧
    ticksToNanoseconds 3000000000 4 = 1 :=
  ticksToNanoseconds_spec 3000000000 4 (by decide) (by decide) (by decide) (by decide)

/-- C3: `clockToNsSinceEpoch` equals
`referenceNsSinceEpoch + ticksToNanoseconds(tickFrequencyHz, clockValue - referenceTickValue)`
with a signed tick delta (negative when `clockValue` is earlier than the
reference); for an anchor at tick 1000 with ns-since-epoch `T` it returns
exactly `T` at tick 1000 and `T + 1,000,000,000` at tick
`1000 + tickFrequencyHz`. -/
theorem clockToNsSinceEpoch_spec (cs : ClockSync) (cv : Nat) (T freq : Nat)
    (off : Int) (tz : String) (hf : freq ≠ 0) (hf64 : freq < 2 ^ 64) :
    clockToNsSinceEpoch cs cv
      = (cs.referenceNsSinceEpoch : Int) +
        ticksToNanoseconds cs.tickFrequencyHz
          ((cv : Int) - (cs.referenceTickValue : Int)) ∧
    (cv < cs.referenceTickValue → (cv : Int) - (cs.referenceTickValue : Int) < 0) ∧
    clockToNsSinceEpoch ⟨1000, freq, T, off, tz⟩ 1000 = (T : Int) ∧
    clockToNsSinceEpoch ⟨1000, freq, T, off, tz⟩ (1000 + freq)
      = (T : Int) + 1000000000 := by
  refine ⟨rfl, by intro h; omega, ?_, ?_⟩
  · show (T : Int) + ticksToNanoseconds freq (((1000 : Nat) : Int) - ((1000 : Nat) : Int)) = T
    norm_num [ticksToNanoseconds, wrapS]
  · show (T : Int) + ticksToNanoseconds freq
        (((1000 + freq : Nat) : Int) - ((1000 : Nat) : Int)) = (T : Int) + 1000000000
    have hdelta : ((1000 + freq : Nat) : Int) - ((1000 : Nat) : Int) = (freq : Int) := by
      push_cast
      ring
    rw [hdelta]
    unfold ticksToNanoseconds
    have h64 : (freq : Int) < (2 : Int) ^ 64 := by exact_mod_cast hf64
    have h127 : (2 : Int) ^ 127 = 170141183460469231731687303715884105728 := by norm_num
    have h64l : (2 : Int) ^ 64 = 18446744073709551616 := by norm_num
    rw [h64l] at h64
    have hfpos : (0 : Int) ≤ (freq : Int) := by positivity
    rw [wrapS_eq_self _ (by rw [h127]; omega) (by rw [h127]; omega)]
    rw [mul_comm]
    rw [Int.mul_tdiv_cancel _ (by exact_mod_cast hf)]

theorem clockToNsSinceEpoch_witness :
    clockToNsSinceEpoch ⟨1000, 3, 5, 0, ""⟩ 42
      = ((5 : Nat) : Int) +
        ticksToNanoseconds 3 (((42 : Nat) : Int) - ((1000 : Nat) : Int)) ∧
    (42 < 1000 → ((42 : Nat) : Int) - ((1000 : Nat) : Int) < 0) ∧
    clockToNsSinceEpoch ⟨1000, 3, 5, 0, ""⟩ 1000 = ((5 : Nat) : Int) ∧
    clockToNsSinceEpoch ⟨1000, 3, 5, 0, ""⟩ (1000 + 3) = ((5 : Nat) : Int) + 1000000000 :=
  clockToNsSinceEpoch_spec ⟨1000, 3, 5, 0, ""⟩ 42 5 3 0 "" (by decide) (by decide)

/-- C10: every ClockSync built by `systemClockSync` has
`tickFrequencyHz != 0` (the system clock's positive period denominator), so
it meets the precondition of `clockToNsSinceEpoch`; and its tick and
nanosecond reference fields describe the same instant: the nanosecond field
is the truncating nanosecond conversion (`durationCastNs`) of the same
since-epoch duration whose raw count is stored in the tick field. -/
theorem systemClockSync_spec (den : Nat) (count offset : Int) (tz : String)
    (hden : 0 < den) :
    (systemClockSync den count offset tz).tickFrequencyHz ≠ 0 ∧
    (systemClockSync den count offset tz).referenceTickValue = toU64 count ∧
    (systemClockSync den count offset tz).referenceNsSinceEpoch
      = toU64 (durationCastNs den count) ∧
    durationCastNs den count = Int.tdiv (count * 1000000000) (den : Int) := by
  refine ⟨?_, rfl, rfl, rfl⟩
  show den ≠ 0
  omega

theorem systemClockSync_witness :
    (systemClockSync 1000000000 42 0 "UTC").tickFrequencyHz ≠ 0 ∧
    (systemClockSync 1000000000 42 0 "UTC").referenceTickValue = toU64 42 ∧
    (systemClockSync 1000000000 42 0 "UTC").referenceNsSinceEpoch
      = toU64 (durationCastNs 1000000000 42) ∧
    durationCastNs 1000000000 42 = Int.tdiv (42 * 1000000000) ((1000000000 : Nat) : Int) :=
  systemClockSync_spec 1000000000 42 0 "UTC" (by decide)

/-- C4: sequence round-trip.  Any well-formed element sequence (including
the empty one, and arbitrarily nested ones such as three-level sequences
with empty inner sequences interspersed) serialized from any container kind
— the wire image depends only on the element sequence, never on the
container kind — deserializes into a variable-size destination to exactly
the same element sequence and count. -/
theorem sequence_roundtrip_spec (e : Shape) (es : List Val) (rest : List Nat)
    (h : WF (.varSeq e) (.seq es) = true) :
    deserialize (.varSeq e) (serialize (.seq es) ++ rest) = .ok (.seq es, rest) :=
  deserialize_serialize _ _ _ h

theorem sequence_roundtrip_witness :
    WF (.varSeq (.varSeq (.fixedSeq (.scalar 1) 3)))
      (.seq [.seq [],
             .seq [.seq [.scalar 1 1, .scalar 1 2, .scalar 1 3]],
             .seq [],
             .seq [.seq [.scalar 1 4, .scalar 1 5, .scalar 1 6],
                   .seq [.scalar 1 7, .scalar 1 8, .scalar 1 9]]]) = true ∧
    deserialize (.varSeq (.varSeq (.fixedSeq (.scalar 1) 3)))
      (serialize (.seq [.seq [],
             .seq [.seq [.scalar 1 1, .scalar 1 2, .scalar 1 3]],
             .seq [],
             .seq [.seq [.scalar 1 4, .scalar 1 5, .scalar 1 6],
                   .seq [.scalar 1 7, .scalar 1 8, .scalar 1 9]]]) ++ [])
      = .ok (.seq [.seq [],
             .seq [.seq [.scalar 1 1, .scalar 1 2, .scalar 1 3]],
             .seq [],
             .seq [.seq [.scalar 1 4, .scalar 1 5, .scalar 1 6],
                   .seq [.scalar 1 7, .scalar 1 8, .scalar 1 9]]], []) :=
  have hwf : WF (.varSeq (.varSeq (.fixedSeq (.scalar 1) 3)))
      (.seq [.seq [],
             .seq [.seq [.scalar 1 1, .scalar 1 2, .scalar 1 3]],
             .seq [],
             .seq [.seq [.scalar 1 4, .scalar 1 5, .scalar 1 6],
                   .seq [.scalar 1 7, .scalar 1 8, .scalar 1 9]]]) = true := by
    simp [WF, WFList, countWidth]
  ⟨hwf, sequence_roundtrip_spec _ _ [] hwf⟩

/-- C5: fixed-size destination count check.  Deserializing a well-formed
serialized sequence into a fixed-size destination of static length `n`
compares the decoded count with `n`: on a mismatch the operation fails with
the Size-Mismatch error (no partial fill of the destination takes place),
and on an exact match the `n` elements are deserialized in order. -/
theorem fixed_size_mismatch_spec (e : Shape) (es : List Val) (n : Nat) (rest : List Nat)
    (h : WF (.varSeq e) (.seq es) = true) :
    (es.length = n →
      deserialize (.fixedSeq e n) (serialize (.seq es) ++ rest) = .ok (.seq es, rest)) ∧
    (es.length ≠ n →
      deserialize (.fixedSeq e n) (serialize (.seq es) ++ rest)
        = .error .sizeMismatch) := by
  simp only [WF, Bool.and_eq_true, decide_eq_true_eq] at h
  obtain ⟨hlen, hwf⟩ := h
  constructor
  · intro hn
    apply deserialize_serialize
    simp only [WF, Bool.and_eq_true, decide_eq_true_eq]
    exact ⟨⟨hn, hlen⟩, hwf⟩
  · intro hn
    rw [serialize, List.append_assoc, deserialize]
    rw [readBytes_append _ _ _ (toBytes_length countWidth es.length)]
    simp only [fromBytes_toBytes _ _ hlen, if_neg hn]

theorem fixed_size_mismatch_witness :
    WF (.varSeq (.scalar 1)) (.seq [.scalar 1 1, .scalar 1 2, .scalar 1 3]) = true ∧
    ([Val.scalar 1 1, .scalar 1 2, .scalar 1 3].length ≠ 6 ∧
      deserialize (.fixedSeq (.scalar 1) 6)
        (serialize (.seq [.scalar 1 1, .scalar 1 2, .scalar 1 3]) ++ [])
        = .error .sizeMismatch) ∧
    ([Val.scalar 1 1, .scalar 1 2, .scalar 1 3].length = 3 ∧
      deserialize (.fixedSeq (.scalar 1) 3)
        (serialize (.seq [.scalar 1 1, .scalar 1 2, .scalar 1 3]) ++ [])
        = .ok (.seq [.scalar 1 1, .scalar 1 2, .scalar 1 3], [])) :=
  have hwf : WF (.varSeq (.scalar 1)) (.seq [.scalar 1 1, .scalar 1 2, .scalar 1 3])
      = true := by simp [WF, WFList, countWidth]
  ⟨hwf,
   ⟨by decide, (fixed_size_mismatch_spec _ _ 6 [] hwf).2 (by decide)⟩,
   ⟨by decide, (fixed_size_mismatch_spec _ _ 3 [] hwf).1 (by decide)⟩⟩

/-- C6: Incomplete-Input on source exhaustion.  Deserializing a scalar from
an empty source fails with Incomplete-Input; deserializing a 4-byte (32-bit)
integer from a source holding only a serialized 2-byte (16-bit) integer
fails with Incomplete-Input; and in general, for every shape, truncating the
wire image of any well-formed value anywhere (so the source is exhausted
while a count, a scalar, or an element is being read) makes deserialization
fail with Incomplete-Input. -/
theorem incomplete_input_spec :
    (∀ w : Nat, 0 < w → deserialize (.scalar w) [] = .error .incompleteInput) ∧
    (∀ x : Nat, x < 2 ^ 16 →
      deserialize (.scalar 4) (serialize (.scalar 2 x)) = .error .incompleteInput) ∧
    (∀ (s : Shape) (v : Val) (k : Nat), WF s v = true → k < (serialize v).length →
      deserialize s ((serialize v).take k) = .error .incompleteInput) := by
  refine ⟨?_, ?_, fun s v k h hk => deserialize_take s v k h hk⟩
  · intro w hw
    have hshort : ([] : List Nat).length < w := by simpa using hw
    simp only [deserialize, readBytes_short _ _ hshort]
  · intro x hx
    rw [serialize]
    have hshort : (toBytes 2 x).length < 4 := by
      rw [toBytes_length]
      norm_num
    simp only [deserialize, readBytes_short _ _ hshort]

theorem incomplete_input_witness :
    (0 < 4 ∧ deserialize (.scalar 4) [] = .error .incompleteInput) ∧
    (123 < 2 ^ 16 ∧
      deserialize (.scalar 4) (serialize (.scalar 2 123)) = .error .incompleteInput) ∧
    (WF (.scalar 2) (.scalar 2 300) = true ∧ 1 < (serialize (.scalar 2 300)).length ∧
      deserialize (.scalar 2) ((serialize (.scalar 2 300)).take 1)
        = .error .incompleteInput) :=
  have h1 : WF (.scalar 2) (.scalar 2 300) = true := by simp [WF]
  have h2 : 1 < (serialize (.scalar 2 300)).length := by
    simp [serialize, toBytes_length]
  ⟨⟨by decide, incomplete_input_spec.1 4 (by decide)⟩,
   ⟨by decide, incomplete_input_spec.2.1 123 (by decide)⟩,
   ⟨h1, h2, incomplete_input_spec.2.2 _ _ 1 h1 h2⟩⟩

/-- C7: variable-size destination replacement.  In-place deserialization of
a sequence into a variable-size destination ignores the prior contents of
the destination (the result is the same for every `old` value, so e.g.
decoding an empty sequence into a 3-element destination leaves it empty):
the decoded value has exactly `count` elements, and a count of 0 is valid,
yields the empty sequence and triggers no further element reads (the bytes
after the count are left untouched). -/
theorem var_size_replace_spec (old : Val) (e : Shape) (es : List Val) (rest : List Nat)
    (h : WF (.varSeq e) (.seq es) = true) :
    (deserializeInto old (.varSeq e) (serialize (.seq es) ++ rest)
      = .ok (.seq es, rest)) ∧
    (deserializeInto old (.varSeq e) (toBytes countWidth 0 ++ rest)
      = .ok (.seq [], rest)) := by
  constructor
  · exact deserialize_serialize _ _ _ h
  · unfold deserializeInto
    have h0 : fromBytes (toBytes countWidth 0) = 0 :=
      fromBytes_toBytes _ _ (by positivity)
    rw [deserialize, readBytes_append _ _ _ (toBytes_length countWidth 0)]
    simp only [h0, deserializeList]

theorem var_size_replace_witness :
    WF (.varSeq (.scalar 1)) (.seq []) = true ∧
    deserializeInto (.seq [.scalar 1 1, .scalar 1 2, .scalar 1 3]) (.varSeq (.scalar 1))
      (toBytes countWidth 0 ++ []) = .ok (.seq [], []) :=
  have hwf : WF (.varSeq (.scalar 1)) (.seq []) = true := by
    simp [WF, WFList, countWidth]
  ⟨hwf, (var_size_replace_spec (.seq [.scalar 1 1, .scalar 1 2, .scalar 1 3])
    (.scalar 1) [] [] hwf).2⟩

/-- C8: packed boolean containers are serialized as a logical sequence of
Booleans — the wire image is the sequence count followed by one full byte
per logical element, produced through the same sequence encoding path —
and the serialize/deserialize round trip reproduces the exact boolean
sequence. -/
theorem vector_bool_spec (bs : List Bool) (rest : List Nat)
    (h : bs.length < 2 ^ (8 * countWidth)) :
    serializeBools bs
      = toBytes countWidth bs.length ++ bs.map (fun b => if b then 1 else 0) ∧
    deserializeBools (serializeBools bs ++ rest) = .ok (bs, rest) := by
  constructor
  · unfold serializeBools
    rw [serialize, serializeList_map_boolToVal, List.length_map]
  · unfold serializeBools deserializeBools
    have hwf : WF (.varSeq (.scalar 1)) (.seq (bs.map boolToVal)) = true := by
      simp only [WF, Bool.and_eq_true, decide_eq_true_eq]
      exact ⟨by simpa using h, WFList_bools bs⟩
    simp only [deserialize_serialize _ _ rest hwf, map_valToBool_boolToVal]

theorem vector_bool_witness :
    ([true, false, false, true, true, false] : List Bool).length < 2 ^ (8 * countWidth) ∧
    deserializeBools (serializeBools [true, false, false, true, true, false] ++ [])
      = .ok ([true, false, false, true, true, false], []) :=
  ⟨by decide,
   (vector_bool_spec [true, false, false, true, true, false] [] (by decide)).2⟩

/-- C9: `nsSinceEpochToBrokenDownTimeUTC` splits every nanoseconds-since-
epoch input into whole seconds and a nanosecond remainder, stores the
remainder in `tm_nsec` (always in `[0, 10^9)`), and converts the whole
seconds to UTC calendar fields of the proleptic Gregorian calendar with
leap seconds ignored (every day has exactly 86,400 seconds): all fields are
in range and recombining them — days via the independent `daysFromFields`
inverse, 86,400 seconds per day, then hours, minutes, seconds and the
nanosecond remainder — yields back exactly the input. -/
theorem nsSinceEpochToBrokenDownTimeUTC_spec (ns : Int) :
    (nsSinceEpochToBrokenDownTimeUTC ns).tm_nsec < 1000000000 ∧
    (nsSinceEpochToBrokenDownTimeUTC ns).tm_sec < 60 ∧
    (nsSinceEpochToBrokenDownTimeUTC ns).tm_min < 60 ∧
    (nsSinceEpochToBrokenDownTimeUTC ns).tm_hour < 24 ∧
    (nsSinceEpochToBrokenDownTimeUTC ns).tm_mon < 12 ∧
    1 ≤ (nsSinceEpochToBrokenDownTimeUTC ns).tm_mday ∧
    (nsSinceEpochToBrokenDownTimeUTC ns).tm_mday
      ≤ (monthLengths (isLeap ((nsSinceEpochToBrokenDownTimeUTC ns).tm_year + 1900))).getD
          (nsSinceEpochToBrokenDownTimeUTC ns).tm_mon 0 ∧
    (daysFromFields ((nsSinceEpochToBrokenDownTimeUTC ns).tm_year + 1900)
          (nsSinceEpochToBrokenDownTimeUTC ns).tm_mon
          (nsSinceEpochToBrokenDownTimeUTC ns).tm_mday * 86400
        + ((nsSinceEpochToBrokenDownTimeUTC ns).tm_hour : Int) * 3600
        + ((nsSinceEpochToBrokenDownTimeUTC ns).tm_min : Int) * 60
        + ((nsSinceEpochToBrokenDownTimeUTC ns).tm_sec : Int)) * 1000000000
      + ((nsSinceEpochToBrokenDownTimeUTC ns).tm_nsec : Int) = ns := by
  have h2 : 0 ≤ ns % 1000000000 := Int.emod_nonneg ns (by norm_num)
  have h3 : ns % 1000000000 < 1000000000 := Int.emod_lt_of_pos ns (by norm_num)
  have h5 : 0 ≤ ns / 1000000000 % 86400 := Int.emod_nonneg _ (by norm_num)
  have h6 : ns / 1000000000 % 86400 < 86400 := Int.emod_lt_of_pos _ (by norm_num)
  obtain ⟨hdy, hdays⟩ := civilFromDays_spec (ns / 1000000000 / 86400)
  have hsum : (civilFromDays (ns / 1000000000 / 86400)).2
      < (monthLengths (isLeap (civilFromDays (ns / 1000000000 / 86400)).1)).sum := by
    rw [monthLengths_sum]
    exact hdy
  obtain ⟨hm0, hmlen, hmtake, hmgetd⟩ :=
    monthAndDay_spec
      (monthLengths (isLeap (civilFromDays (ns / 1000000000 / 86400)).1))
      0 (civilFromDays (ns / 1000000000 / 86400)).2 hsum
  simp only [Nat.sub_zero] at hmlen hmtake hmgetd
  rw [monthLengths_length] at hmlen
  simp only [nsSinceEpochToBrokenDownTimeUTC]
  have hyy : (civilFromDays (ns / 1000000000 / 86400)).1 - 1900 + 1900
      = (civilFromDays (ns / 1000000000 / 86400)).1 := by ring
  refine ⟨by omega, by omega, by omega, by omega, by omega, by omega, ?_, ?_⟩
  · rw [hyy]
    omega
  · rw [hyy]
    unfold daysFromFields
    omega
